import Mathlib

/-
Verification of the polysat constraint manager
(src/math/polysat/constraint_manager.cpp).

The development shallowly embeds the constraint manager's data model and
operations: the two-watched-literal clause engine (normalize_watch, watch,
unwatch), level-scoped clause storage (register_clause, release_level),
the dedup / hash-consing store (dedup, ule, eq, ult, sle, umul_ovfl,
mk_op_constraint), and the lazy axiomatizers (quot_rem, mk_op_term).
Collaborating layers that live outside the translated file (the polynomial
layer, the boolean trail, ule_constraint::simplify, solver::add_clause) are
modelled from the specification; each such definition carries a doc comment
saying so.
-/

set_option autoImplicit false

namespace Polysat

/-! ## Generic association-list helpers (model of z3 maps keyed by value) -/

/-- Lookup in an association list, first matching key wins. -/
def alookup {α β : Type} [DecidableEq α] : List (α × β) → α → Option β
  | [], _ => none
  | (a, b) :: t, k => if k = a then some b else alookup t k

/-- Update (or insert) the binding of a key in an association list. -/
def aupdate {α β : Type} [DecidableEq α] : List (α × β) → α → β → List (α × β)
  | [], k, v => [(k, v)]
  | (a, b) :: t, k, v => if k = a then (k, v) :: t else (a, b) :: aupdate t k v

theorem alookup_aupdate {α β : Type} [DecidableEq α] (m : List (α × β)) (k k' : α) (v : β) :
    alookup (aupdate m k v) k' = if k' = k then some v else alookup m k' := by
  induction m with
  | nil =>
    by_cases h : k' = k <;> simp [alookup, aupdate, h]
  | cons hd t ih =>
    obtain ⟨a, b⟩ := hd
    by_cases hk : k = a
    · subst hk
      by_cases h : k' = k <;> simp [alookup, aupdate, h]
    · by_cases h : k' = a
      · subst h
        have : ¬ k' = k := fun hc => hk hc.symm
        simp [alookup, aupdate, hk, this]
      · simp [alookup, aupdate, hk, h, ih]

theorem alookup_eq_none_iff {α β : Type} [DecidableEq α] (m : List (α × β)) (k : α) :
    alookup m k = none ↔ k ∉ m.map Prod.fst := by
  induction m with
  | nil => simp [alookup]
  | cons hd t ih =>
    obtain ⟨a, b⟩ := hd
    by_cases h : k = a <;> simp [alookup, h, ih]

/-! ## Literals and truth values

`sat::literal` is a boolean variable together with a sign; `~lit` flips the
sign; `lit.index()` is `2 * var + sign`. `lbool` is the three-valued truth
value used by the boolean trail. -/

/-- A boolean literal: a boolean variable index plus a sign
(`sign = true` is the negated literal), as in `sat::literal`. -/
structure Lit where
  bvar : Nat
  sign : Bool
deriving DecidableEq, Repr

/-- Literal negation (`operator~` on `sat::literal`): flip the sign. -/
def Lit.negate (l : Lit) : Lit := ⟨l.bvar, !l.sign⟩

/-- The dense index of a literal (`sat::literal::index()`): `2 * var + sign`. -/
def Lit.index (l : Lit) : Nat := 2 * l.bvar + (if l.sign then 1 else 0)

/-- Three-valued truth value (`lbool`). -/
inductive LBool where
  | ltrue
  | lfalse
  | lundef
deriving DecidableEq, Repr

/-- The value of `UINT_MAX` used by `normalize_watch` as the "infinite"
watch level of a true literal. -/
def UINT_MAX : Nat := 2 ^ 32 - 1

/-! ## The polynomial layer

Modelled from the spec: the polynomial/term layer is an external
collaborator ("canonical polynomial construction; arithmetic operators
(+, −, ×, negation); constant/zero/value construction; bit-width query;
fresh-variable introduction", spec section 6).  A `pdd` of width `w` is a
fixed-width polynomial modulo `2^w`.  We model the fragment the constraint
manager exercises: constants (canonically reduced modulo `2^w`), solver
variables, and the arithmetic operators, with constant folding so that
operations on concrete values yield concrete values, as the canonical pdd
layer guarantees. -/

/-- Model of `pdd`: a constant value, a solver variable, or a compound
arithmetic term.  The first argument of `val`/`var` is the bit width. -/
inductive Pdd where
  | val (w : Nat) (n : Nat)
  | var (w : Nat) (v : Nat)
  | add (p q : Pdd)
  | mul (p q : Pdd)
  | neg (p : Pdd)
deriving DecidableEq, Repr

/-- Bit width of a pdd (`manager().power_of_2()`). -/
def Pdd.width : Pdd → Nat
  | .val w _ => w
  | .var w _ => w
  | .add p _ => p.width
  | .mul p _ => p.width
  | .neg p => p.width

/-- Modelled from the spec: `mk_val` builds the canonical constant pdd,
reduced modulo `2^w`. -/
def Pdd.mkVal (w n : Nat) : Pdd := .val w (n % 2 ^ w)

/-- Modelled from the spec: `max_value()` of a width-`w` pdd manager is the
all-ones value `2^w - 1`. -/
def maxValue (w : Nat) : Nat := 2 ^ w - 1

/-- Test for the zero polynomial (`pdd::is_zero`). -/
def Pdd.is_zero : Pdd → Bool
  | .val _ n => n == 0
  | _ => false

/-- Test for the one polynomial (`pdd::is_one`). -/
def Pdd.is_one : Pdd → Bool
  | .val _ n => n == 1
  | _ => false

/-- Test for a concrete value (`pdd::is_val`). -/
def Pdd.is_val : Pdd → Bool
  | .val _ _ => true
  | _ => false

/-- The concrete value of a constant pdd (`pdd::val`; meaningful only when
`is_val` holds, `0` otherwise). -/
def Pdd.value : Pdd → Nat
  | .val _ n => n
  | _ => 0

/-- Modelled from the spec: pdd addition; constants fold canonically. -/
def Pdd.padd (p q : Pdd) : Pdd :=
  match p, q with
  | .val w m, .val _ n => .val w ((m + n) % 2 ^ w)
  | _, _ => .add p q

/-- Modelled from the spec: pdd multiplication; constants fold canonically. -/
def Pdd.pmul (p q : Pdd) : Pdd :=
  match p, q with
  | .val w m, .val _ n => .val w ((m * n) % 2 ^ w)
  | _, _ => .mul p q

/-- Modelled from the spec: pdd negation; constants fold canonically. -/
def Pdd.pneg (p : Pdd) : Pdd :=
  match p with
  | .val w n => .val w ((2 ^ w - n) % 2 ^ w)
  | _ => .neg p

/-- Modelled from the spec: pdd subtraction `p - q = p + (-q)`. -/
def Pdd.psub (p q : Pdd) : Pdd := p.padd q.pneg

/-- Addition of a constant to a pdd (`pdd + rational`), the constant being
interpreted in the pdd's own manager. -/
def Pdd.paddConst (p : Pdd) (n : Nat) : Pdd := p.padd (Pdd.mkVal p.width n)

/-- Evaluation of a pdd under an assignment of solver variables, modulo
`2^w` at each node (values of a width-`w` pdd live in `[0, 2^w)`). -/
def Pdd.eval (sigma : Nat → Nat) : Pdd → Nat
  | .val w n => n % 2 ^ w
  | .var w v => sigma v % 2 ^ w
  | .add p q => (p.eval sigma + q.eval sigma) % 2 ^ p.width
  | .mul p q => (p.eval sigma * q.eval sigma) % 2 ^ p.width
  | .neg p => (2 ^ p.width - p.eval sigma) % 2 ^ p.width

/-! ## Watch-engine state

The clause side of the constraint manager together with the parts of the
boolean trail it reads and writes.  Clauses are identified by ids; the
clause store maps an id to the clause's current literal sequence (the
mutable `clause` object), `refcount` models `clause::m_ref_count`,
`buckets` is the per-level clause storage `m_clauses`, and `watch` is the
per-literal watch-list array of the boolean trail, indexed by
`Lit.index`. -/

/-- The watch-engine state: clause store, level buckets, boolean trail. -/
structure WState where
  values : List (Nat × Bool)
  levels : List (Nat × Nat)
  watch : List (Nat × List Nat)
  clauses : List (Nat × List Lit)
  refcount : List (Nat × Nat)
  buckets : List (List Nat)
  conflict : Bool
  evalFalse : List Nat
  curLevel : Nat
deriving DecidableEq, Repr

/-- Modelled from the spec: the boolean trail's per-literal truth value
(`s.m_bvars.value(lit)`).  A variable absent from `values` is unassigned;
a positive literal is true iff its variable is assigned true. -/
def litValue (st : WState) (l : Lit) : LBool :=
  match alookup st.values l.bvar with
  | none => LBool.lundef
  | some v => if v = !l.sign then LBool.ltrue else LBool.lfalse

/-- Modelled from the spec: the decision level of an assigned literal
(`s.m_bvars.level(lit)`). -/
def litLevel (st : WState) (l : Lit) : Nat :=
  (alookup st.levels l.bvar).getD 0

/-- The watch level used by `normalize_watch`: the assigned decision level
of a false literal, `UINT_MAX` for a true literal, `UINT_MAX - 1` for an
unassigned literal. -/
def get_watch_level (st : WState) (l : Lit) : Nat :=
  match litValue st l with
  | LBool.lfalse => litLevel st l
  | LBool.ltrue => UINT_MAX
  | LBool.lundef => UINT_MAX - 1

/-- One iteration of the selection loop of `normalize_watch` (the body for
index `i ≥ 2`): the state is the current two front literals together with
the already-processed tail (positions `2..i-1`). -/
def normStep (w : Lit → Nat) (s : Lit × Lit × List Lit) (lit : Lit) : Lit × Lit × List Lit :=
  if w lit > w s.1 then (lit, s.1, s.2.2 ++ [s.2.1])
  else if w lit > w s.2.1 then (s.1, lit, s.2.2 ++ [s.2.1])
  else (s.1, s.2.1, s.2.2 ++ [lit])

/-- The literal-moving pass of `normalize_watch`, parameterized by the
watch-level function: swap the two front positions if needed, then run the
selection loop over positions `2..`. -/
def normalizeWatchAux (w : Lit → Nat) : List Lit → List Lit
  | c0 :: c1 :: rest =>
    let s0 : Lit × Lit × List Lit :=
      if w c0 < w c1 then (c1, c0, []) else (c0, c1, [])
    let r := rest.foldl (normStep w) s0
    r.1 :: r.2.1 :: r.2.2
  | cl => cl

/-- `constraint_manager::normalize_watch`: move the literals to be watched
to the front of the clause. -/
def normalize_watch (st : WState) (cl : List Lit) : List Lit :=
  normalizeWatchAux (get_watch_level st) cl

/-- Modelled from the spec: the trail's propagate-true operation
(`s.assign_propagate`): assign the literal true at the current level. -/
def assign_propagate (st : WState) (l : Lit) : WState :=
  { st with
    values := aupdate st.values l.bvar (!l.sign)
    levels := aupdate st.levels l.bvar st.curLevel }

/-- Modelled from the spec: a theory-consequence assignment
(`s.assign_eval`): assign the literal true at the current level. -/
def assign_eval (st : WState) (l : Lit) : WState :=
  { st with
    values := aupdate st.values l.bvar (!l.sign)
    levels := aupdate st.levels l.bvar st.curLevel }

/-- Modelled from the spec: the trail's set-conflict operation. -/
def set_conflict (st : WState) : WState := { st with conflict := true }

/-- Modelled from the spec: whether the theory currently evaluates the
literal's constraint to false (`s.lit2cnstr(lit).is_currently_false(s)`),
kept as an explicit oracle set of literal indices in the state. -/
def isCurrentlyFalse (st : WState) (l : Lit) : Bool :=
  decide (l.index ∈ st.evalFalse)

/-- Clause lookup in the clause store (dereferencing the clause object). -/
def getClause (st : WState) (cid : Nat) : List Lit :=
  (alookup st.clauses cid).getD []

/-- Write back a clause's (re-ordered) literal sequence. -/
def setClause (st : WState) (cid : Nat) (cl : List Lit) : WState :=
  { st with clauses := aupdate st.clauses cid cl }

/-- The reference count of a clause (`clause::m_ref_count`). -/
def refcountOf (st : WState) (cid : Nat) : Nat :=
  (alookup st.refcount cid).getD 0

/-- The watch list of a literal index (`s.m_bvars.watch(lit)`). -/
def getWatch (st : WState) (i : Nat) : List Nat :=
  (alookup st.watch i).getD []

/-- Replace the watch list of a literal index. -/
def setWatch (st : WState) (i : Nat) (l : List Nat) : WState :=
  { st with watch := aupdate st.watch i l }

/-- `watch(lit).push_back(&cl)`: append the clause to a watch list. -/
def pushWatch (st : WState) (i : Nat) (cid : Nat) : WState :=
  setWatch st i (getWatch st i ++ [cid])

/-- `watch(lit).erase(&cl)`: remove the first occurrence of the clause
from a watch list; a no-op when the clause is not in the list. -/
def eraseWatch (st : WState) (i : Nat) (cid : Nat) : WState :=
  setWatch st i ((getWatch st i).erase cid)

/-- The first loop of the `value_propagate` block of
`constraint_manager::watch`: find the unique unassigned literal of a
clause with no true literal (`none` when a true literal or a second
unassigned literal is found). -/
def findUndef (st : WState) : List Lit → Option Lit → Option Lit
  | [], acc => acc
  | lit :: rest, acc =>
    if litValue st lit = LBool.lfalse then findUndef st rest acc
    else if litValue st lit = LBool.ltrue then none
    else
      match acc with
      | none => findUndef st rest (some lit)
      | some _ => none

/-- The second loop of the `value_propagate` block of
`constraint_manager::watch`: for every literal the theory evaluates to
false, either report a conflict (when the literal is assigned true; the
`true` flag signals the early return from `watch`) or assign its negation
as a theory consequence. -/
def watchEvalLoop (st : WState) : List Lit → WState × Bool
  | [] => (st, false)
  | lit :: rest =>
    if litValue st lit = LBool.lfalse then watchEvalLoop st rest
    else if isCurrentlyFalse st lit then
      (if litValue st lit = LBool.ltrue then (set_conflict st, true)
       else watchEvalLoop (assign_eval st lit.negate) rest)
    else watchEvalLoop st rest

/-- The `value_propagate` block of `constraint_manager::watch`: boolean
unit propagation first, then the theory-evaluation pass. -/
def watchValueProp (st : WState) (cl : List Lit) : WState × Bool :=
  let st1 :=
    match findUndef st cl none with
    | some u => assign_propagate st u
    | none => st
  watchEvalLoop st1 cl

/-- `constraint_manager::watch`: empty clauses are a no-op; with
`value_propagate`, run the propagation block (which may return early on a
conflict); unit clauses are propagated or reported as conflicts; larger
clauses are normalized, registered in the watch lists of their two front
literals, and checked for propagation or conflict. -/
def watch (st : WState) (cid : Nat) (value_propagate : Bool) : WState :=
  let cl := getClause st cid
  match cl with
  | [] => st
  | _ :: _ =>
    let se := if value_propagate then watchValueProp st cl else (st, false)
    if se.2 then se.1
    else
      match cl with
      | [l0] =>
        if litValue se.1 l0 = LBool.lfalse then set_conflict se.1
        else if litValue se.1 l0 = LBool.lundef then assign_propagate se.1 l0
        else se.1
      | _ :: _ :: _ =>
        let cl1 := normalize_watch se.1 cl
        let st2 := setClause se.1 cid cl1
        match cl1 with
        | n0 :: n1 :: _ =>
          let st3 := pushWatch (pushWatch st2 n0.index cid) n1.index cid
          if litValue st3 n0 = LBool.ltrue then st3
          else if ¬ litValue st3 n1 = LBool.lfalse then st3
          else if litValue st3 n0 = LBool.lfalse then set_conflict st3
          else assign_propagate st3 n0
        | _ => st2
      | [] => se.1

/-- `constraint_manager::unwatch`: a no-op for clauses of size at most
one; otherwise erase the clause from the watch lists of the *negations*
of its two front literals. -/
def unwatch (st : WState) (cid : Nat) : WState :=
  let cl := getClause st cid
  if cl.length ≤ 1 then st
  else
    match cl with
    | l0 :: l1 :: _ =>
      eraseWatch (eraseWatch st (l0.negate.index) cid) (l1.negate.index) cid
    | _ => st

/-- Pad the level buckets so that the given index exists
(the `while (m_clauses.size() <= clause_level) push_back` loop). -/
def padBuckets (bs : List (List Nat)) (n : Nat) : List (List Nat) :=
  bs ++ List.replicate (n - bs.length) []

/-- `constraint_manager::register_clause`: file the clause under its
introducing level.  The source computes `s.base_level()` but immediately
overrides it with `0` (an acknowledged placeholder), so every clause is
filed at level `0`. -/
def register_clause (st : WState) (cid : Nat) : WState :=
  let clause_level := 0
  let bs := padBuckets st.buckets (clause_level + 1)
  { st with buckets := bs.set clause_level ((bs.getD clause_level []) ++ [cid]) }

/-- `constraint_manager::store(clause*, bool)`: register the clause in
level storage, then install its watches. -/
def store (st : WState) (cid : Nat) (value_propagate : Bool) : WState :=
  watch (register_clause st cid) cid value_propagate

/-- The clause bucket of a level (`m_clauses[l]`; empty past the end). -/
def bucketAt (st : WState) (l : Nat) : List Nat :=
  st.buckets.getD l []

/-- The inner loop of `release_level`: unwatch every clause of a bucket,
checking the `SASSERT_EQ(cl->m_ref_count, 1)` assertion; `none` models an
assertion failure (a leftover reference). -/
def releaseBucketClauses (st : WState) : List Nat → Option WState
  | [] => some st
  | cid :: rest =>
    let st1 := unwatch st cid
    if refcountOf st1 cid = 1 then releaseBucketClauses st1 rest else none

/-- Release one level: unwatch and check every clause of its bucket, then
clear the bucket (`m_clauses[l].reset()`). -/
def releaseAt (st : WState) (l : Nat) : Option WState :=
  (releaseBucketClauses st (bucketAt st l)).map
    (fun st1 => { st1 with buckets := st1.buckets.set l [] })

/-- The loop of `release_level`: process the `n` levels
`lvl + n - 1, ..., lvl`, highest first. -/
def release_levels (st : WState) (lvl : Nat) : Nat → Option WState
  | 0 => some st
  | Nat.succ m =>
    match releaseAt st (lvl + m) with
    | none => none
    | some st1 => release_levels st1 lvl m

/-- `constraint_manager::release_level`: release all clauses at the given
level and above, from the highest populated level down. -/
def release_level (st : WState) (lvl : Nat) : Option WState :=
  release_levels st lvl (st.buckets.length - lvl)

/-! ## Constraints, dedup store, and axiomatizers

The structural key of a constraint (its immutable payload): the atom kind
together with its pdd operands.  `m_dedup.constraints` hash-conses these
keys; a canonical constraint instance is a key together with its assigned
boolean variable. -/

/-- The operation code of an `op_constraint` (`op_constraint::code`). -/
inductive OpCode where
  | lshr_op
  | shl_op
  | and_op
deriving DecidableEq, Repr

/-- The structural key of a constraint: kind plus operands. -/
inductive CKey where
  | uleK (lhs rhs : Pdd)
  | umulOvflK (a b : Pdd)
  | smulFlK (a b : Pdd) (isOvfl : Bool)
  | opK (op : OpCode) (p q r : Pdd)
deriving DecidableEq, Repr

/-- A canonical constraint instance: a structural key together with the
boolean variable assigned when the instance was registered. -/
structure CInst where
  key : CKey
  bvar : Nat
deriving DecidableEq, Repr

/-- A `signed_constraint`: a canonical constraint instance plus a
polarity. -/
structure SignedC where
  c : CInst
  pos : Bool
deriving DecidableEq, Repr

/-- Negation of a signed constraint (`operator~`). -/
def SignedC.negate (s : SignedC) : SignedC := { s with pos := !s.pos }

/-- The constraint-manager state threaded through the axiomatizers:
the boolean-variable counter of the trail (`s.m_bvars.new_var`), the
variable-to-constraint bridge `m_bv2constraint`, the dedup table
`m_dedup.constraints` (key to boolean variable of the canonical
instance), the storage `m_constraints`, the two operation-memo tables
`m_dedup.quot_rem_expr` and `m_dedup.op_constraint_expr`, the solver
variable counter (`s.add_var`), and the clauses handed to the solver. -/
structure Manager where
  next_bvar : Nat
  bv2c : List (Nat × CKey)
  dedupC : List (CKey × Nat)
  constraints : List CKey
  quotRemExpr : List ((Pdd × Pdd) × (Nat × Nat))
  opExpr : List ((OpCode × Pdd × Pdd) × Nat)
  next_pvar : Nat
  clauses : List (List SignedC)
deriving DecidableEq, Repr

/-- The empty constraint-manager state. -/
def Manager.init : Manager :=
  { next_bvar := 0, bv2c := [], dedupC := [], constraints := []
    quotRemExpr := [], opExpr := [], next_pvar := 0, clauses := [] }

/-- `constraint_manager::dedup`: look the candidate's structural key up in
the dedup table; on a hit return the existing canonical instance (the
candidate is deallocated); on a miss assign a fresh boolean variable
(`ensure_bvar`, which links it in `m_bv2constraint`), insert the key, file
the constraint in storage, and return the new instance. -/
def dedup (st : Manager) (k : CKey) : Manager × CInst :=
  match alookup st.dedupC k with
  | some bv => (st, ⟨k, bv⟩)
  | none =>
    let bv := st.next_bvar
    ({ st with
        next_bvar := bv + 1
        bv2c := (bv, k) :: st.bv2c
        dedupC := (k, bv) :: st.dedupC
        constraints := st.constraints ++ [k] },
     ⟨k, bv⟩)

/-- Modelled from the spec: `ule_constraint::simplify` (its file is not
part of the translated source).  The spec says only that "a simplification
pass may flip polarity/operands before dedup"; it is modelled as the
identity pass (no flip), which is one legal such pass and preserves the
constraint's meaning. -/
def ule_simplify (isPositive : Bool) (lhs rhs : Pdd) : Bool × Pdd × Pdd :=
  (isPositive, lhs, rhs)

/-- `constraint_manager::ule`: simplify, then dedup a `ule_constraint`
with the simplified operands, signed with the simplified polarity. -/
def ule (st : Manager) (a b : Pdd) : Manager × SignedC :=
  let s := ule_simplify true a b
  let d := dedup st (CKey.uleK s.2.1 s.2.2)
  (d.1, ⟨d.2, s.1⟩)

/-- `constraint_manager::eq`: equality with zero via the `ule`
primitive, `eq(p) = ule(p, 0)`. -/
def eqc (st : Manager) (p : Pdd) : Manager × SignedC :=
  ule st p (Pdd.val p.width 0)

/-- `constraint_manager::ult`: strict comparison as a negation,
`ult(a, b) = ~ule(b, a)`. -/
def ult (st : Manager) (a b : Pdd) : Manager × SignedC :=
  let r := ule st b a
  (r.1, r.2.negate)

/-- `constraint_manager::umul_ovfl`: dedup an unsigned-multiplication
overflow constraint, always positive. -/
def umul_ovfl (st : Manager) (a b : Pdd) : Manager × SignedC :=
  let d := dedup st (CKey.umulOvflK a b)
  (d.1, ⟨d.2, true⟩)

/-- `constraint_manager::mk_op_constraint`: dedup a generic operation
constraint, always positive. -/
def mk_op_constraint (st : Manager) (op : OpCode) (p q r : Pdd) : Manager × SignedC :=
  let d := dedup st (CKey.opK op p q r)
  (d.1, ⟨d.2, true⟩)

/-- `constraint_manager::sle`: signed comparison by flipping the sign bit,
`sle(a, b) = ule(a + 2^(K-1), b + 2^(K-1))` with `K` the bit width of
`a`. -/
def sle (st : Manager) (a b : Pdd) : Manager × SignedC :=
  let shift := 2 ^ (a.width - 1)
  ule st (a.paddConst shift) (b.paddConst shift)

/-- Modelled from the spec: `solver::add_clause` (its file is not part of
the translated source) hands the produced clause of signed constraints to
the solver; modelled as appending it to the solver's clause list. -/
def add_clause (st : Manager) (cs : List SignedC) : Manager :=
  { st with clauses := st.clauses ++ [cs] }

/-- `constraint_manager::quot_rem`: unsigned quotient and remainder.
Constant folding: a zero divisor yields `(all-ones, a)` (the SMT-LIB
division-by-zero convention), a one divisor yields `(a, 0)`, and two
concrete operands yield the exact machine quotient and remainder
(`machine_div_rem`, modelled from the spec as Euclidean division on the
canonical values).  Otherwise the result is memoized by the operand pair:
a hit returns the previously introduced variables; a miss allocates two
fresh solver variables, records them, and emits the five defining
clauses. -/
def quot_rem (st : Manager) (a b : Pdd) : Manager × (Pdd × Pdd) :=
  let K := a.width
  if b.is_zero then (st, (Pdd.mkVal K (maxValue K), a))
  else if b.is_one then (st, (a, Pdd.val K 0))
  else if a.is_val && b.is_val then
    let av := a.value
    let bv := b.value
    let qv := av / bv
    let rv := av % bv
    (st, (Pdd.mkVal K qv, Pdd.mkVal K rv))
  else
    match alookup st.quotRemExpr (a, b) with
    | some qr => (st, (Pdd.var K qr.1, Pdd.var K qr.2))
    | none =>
      let qi := st.next_pvar
      let ri := st.next_pvar + 1
      let st1 := { st with
        next_pvar := st.next_pvar + 2
        quotRemExpr := ((a, b), (qi, ri)) :: st.quotRemExpr }
      let q := Pdd.var K qi
      let r := Pdd.var K ri
      let e1 := eqc st1 (((b.pmul q).padd r).psub a)
      let st2 := add_clause e1.1 [e1.2]
      let e2 := umul_ovfl st2 b q
      let st3 := add_clause e2.1 [e2.2.negate]
      let e3 := ule st3 (b.pmul q) ((r.pneg).psub (Pdd.val K 1))
      let st4 := add_clause e3.1 [e3.2]
      let e4 := eqc st4 b
      let e5 := ult e4.1 r b
      let st5 := add_clause e5.1 [e4.2, e5.2]
      let e6 := eqc st5 (q.padd (Pdd.val K 1))
      let st6 := add_clause e6.1 [e4.2.negate, e6.2]
      (st6, (q, r))

/-- `constraint_manager::mk_op_term`: memoized generic operation term.
A hit returns the previously introduced result variable; a miss allocates
a fresh solver variable, records it under the `(op, p, q)` key, and emits
the single defining operation constraint as a unit clause. -/
def mk_op_term (st : Manager) (op : OpCode) (p q : Pdd) : Manager × Pdd :=
  let K := p.width
  match alookup st.opExpr (op, p, q) with
  | some rv => (st, Pdd.var K rv)
  | none =>
    let ri := st.next_pvar
    let st1 := { st with
      next_pvar := st.next_pvar + 1
      opExpr := ((op, p, q), ri) :: st.opExpr }
    let r := Pdd.var K ri
    let e := mk_op_constraint st1 op p q r
    (add_clause e.1 [e.2], r)

/-- Modelled from the spec: the meaning of the canonical unsigned
less-or-equal primitive — a `ule(lhs, rhs)` atom holds iff `lhs ≤ rhs` on
the evaluated width-`K` values.  The semantics of the other constraint
kinds is not needed by any claim and is left unmodelled (`none`). -/
def CKey.sem (sigma : Nat → Nat) : CKey → Option Bool
  | .uleK l r => some (decide (l.eval sigma ≤ r.eval sigma))
  | _ => none

/-- Whether a signed constraint holds under an assignment: the atom's
truth value must match the polarity. -/
def SignedC.holds (sigma : Nat → Nat) (s : SignedC) : Option Bool :=
  (CKey.sem sigma s.c.key).map (fun v => v == s.pos)

/-- Modelled from the spec: the two's-complement signed reading of a
width-`K` unsigned value (values `≥ 2^(K-1)` are negative). -/
def twosComplement (K n : Nat) : Int :=
  if n < 2 ^ (K - 1) then (n : Int) else (n : Int) - ((2 ^ K : Nat) : Int)

/-! ## Lemmas about `normalize_watch` -/

theorem foldl_normStep_inv (w : Lit → Nat) :
    ∀ (l : List Lit) (l0 l1 : Lit) (acc : List Lit),
      w l1 ≤ w l0 → (∀ x ∈ acc, w x ≤ w l1) →
      w (l.foldl (normStep w) (l0, l1, acc)).2.1 ≤ w (l.foldl (normStep w) (l0, l1, acc)).1 ∧
      ∀ x ∈ (l.foldl (normStep w) (l0, l1, acc)).2.2,
        w x ≤ w (l.foldl (normStep w) (l0, l1, acc)).2.1 := by
  intro l
  induction l with
  | nil => intro l0 l1 acc h1 h2; exact ⟨h1, h2⟩
  | cons lit t ih =>
    intro l0 l1 acc h1 h2
    simp only [List.foldl_cons]
    by_cases hc0 : w lit > w l0
    · have hacc : ∀ x ∈ acc ++ [l1], w x ≤ w l0 := by
        intro x hx
        rcases List.mem_append.mp hx with hx | hx
        · exact le_trans (h2 x hx) h1
        · simp only [List.mem_singleton] at hx; subst hx; exact h1
      simpa [normStep, hc0] using ih lit l0 (acc ++ [l1]) (le_of_lt hc0) hacc
    · by_cases hc1 : w lit > w l1
      · have hacc : ∀ x ∈ acc ++ [l1], w x ≤ w lit := by
          intro x hx
          rcases List.mem_append.mp hx with hx | hx
          · exact le_trans (h2 x hx) (le_of_lt hc1)
          · simp only [List.mem_singleton] at hx; subst hx; exact le_of_lt hc1
        simpa [normStep, hc0, hc1] using ih l0 lit (acc ++ [l1]) (not_lt.mp hc0) hacc
      · have hacc : ∀ x ∈ acc ++ [lit], w x ≤ w l1 := by
          intro x hx
          rcases List.mem_append.mp hx with hx | hx
          · exact h2 x hx
          · simp only [List.mem_singleton] at hx; subst hx; exact not_lt.mp hc1
        simpa [normStep, hc0, hc1] using ih l0 l1 (acc ++ [lit]) h1 hacc

theorem normStep_perm (w : Lit → Nat) (s : Lit × Lit × List Lit) (lit : Lit) :
    ((normStep w s lit).1 :: (normStep w s lit).2.1 :: (normStep w s lit).2.2).Perm
      (lit :: s.1 :: s.2.1 :: s.2.2) := by
  obtain ⟨l0, l1, acc⟩ := s
  by_cases hc0 : w lit > w l0
  · simpa [normStep, hc0] using
      ((List.perm_append_singleton l1 acc).cons l0).cons lit
  · by_cases hc1 : w lit > w l1
    · simp only [normStep, hc0, hc1, if_true, if_false]
      exact (((List.perm_append_singleton l1 acc).cons lit).cons l0).trans
        (List.Perm.swap lit l0 (l1 :: acc))
    · simp only [normStep, hc0, hc1, if_false]
      refine (((List.perm_append_singleton lit acc).cons l1).cons l0).trans ?_
      exact @List.perm_middle _ lit [l0, l1] acc

theorem foldl_normStep_perm (w : Lit → Nat) :
    ∀ (l : List Lit) (s : Lit × Lit × List Lit),
      ((l.foldl (normStep w) s).1 :: (l.foldl (normStep w) s).2.1 ::
        (l.foldl (normStep w) s).2.2).Perm (s.1 :: s.2.1 :: s.2.2 ++ l) := by
  intro l
  induction l with
  | nil => intro s; simp
  | cons lit t ih =>
    intro s
    simp only [List.foldl_cons]
    refine ((ih (normStep w s lit)).trans ?_)
    refine ((normStep_perm w s lit).append_right t).trans ?_
    exact (@List.perm_middle _ lit (s.1 :: s.2.1 :: s.2.2) t).symm

/-- C9: `normalize_watch` only permutes the literals of the clause: the
multiset of literals after the call equals the multiset before it (stated
for every clause; in particular for every clause of size greater than
one). -/
theorem C9_normalize_watch_permutes (st : WState) (cl : List Lit) :
    ((normalize_watch st cl : Multiset Lit)) = (cl : Multiset Lit) := by
  apply Multiset.coe_eq_coe.mpr
  match cl with
  | [] => simp [normalize_watch, normalizeWatchAux]
  | [x] => simp [normalize_watch, normalizeWatchAux]
  | c0 :: c1 :: rest =>
    set w := get_watch_level st with hw
    by_cases h : w c0 < w c1
    · have := foldl_normStep_perm w rest (c1, c0, [])
      simp only [normalize_watch, normalizeWatchAux, h, if_true]
      exact this.trans ((List.Perm.swap c0 c1 rest).trans (List.Perm.refl _))
    · have := foldl_normStep_perm w rest (c0, c1, [])
      simp only [normalize_watch, normalizeWatchAux, h, if_false]
      exact this

/-- The selection pass establishes the watch invariant, for an arbitrary
watch-level function. -/
theorem normalizeWatchAux_spec (w : Lit → Nat) (c0 c1 : Lit) (rest : List Lit) :
    ∃ r0 r1 tl, normalizeWatchAux w (c0 :: c1 :: rest) = r0 :: r1 :: tl ∧
      w r1 ≤ w r0 ∧ ∀ x ∈ tl, w x ≤ w r1 ∧ w x ≤ w r0 := by
  by_cases h : w c0 < w c1
  · have hinv := foldl_normStep_inv w rest c1 c0 [] (le_of_lt h) (by simp)
    have heq : normalizeWatchAux w (c0 :: c1 :: rest) =
        (rest.foldl (normStep w) (c1, c0, [])).1 ::
          (rest.foldl (normStep w) (c1, c0, [])).2.1 ::
          (rest.foldl (normStep w) (c1, c0, [])).2.2 := by
      simp only [normalizeWatchAux, h, if_true]
    exact ⟨_, _, _, heq, hinv.1,
      fun x hx => ⟨hinv.2 x hx, le_trans (hinv.2 x hx) hinv.1⟩⟩
  · have hinv := foldl_normStep_inv w rest c0 c1 [] (not_lt.mp h) (by simp)
    have heq : normalizeWatchAux w (c0 :: c1 :: rest) =
        (rest.foldl (normStep w) (c0, c1, [])).1 ::
          (rest.foldl (normStep w) (c0, c1, [])).2.1 ::
          (rest.foldl (normStep w) (c0, c1, [])).2.2 := by
      simp only [normalizeWatchAux, h, if_false]
    exact ⟨_, _, _, heq, hinv.1,
      fun x hx => ⟨hinv.2 x hx, le_trans (hinv.2 x hx) hinv.1⟩⟩

/-- C1: for every clause of size greater than one, after
`normalize_watch` — with the watch level of a literal defined as its
assigned decision level if false, `UINT_MAX` if true and `UINT_MAX - 1`
if unassigned — position 0's watch level is at least position 1's, and no
literal at a position `≥ 2` has a watch level exceeding either front
position's. -/
theorem C1_normalize_watch_invariant (st : WState) (c0 c1 : Lit) (rest : List Lit) :
    ∃ r0 r1 tl, normalize_watch st (c0 :: c1 :: rest) = r0 :: r1 :: tl ∧
      get_watch_level st r1 ≤ get_watch_level st r0 ∧
      ∀ x ∈ tl, get_watch_level st x ≤ get_watch_level st r1 ∧
        get_watch_level st x ≤ get_watch_level st r0 :=
  normalizeWatchAux_spec (get_watch_level st) c0 c1 rest

/-! ## Claims about the dedup store and the axiomatizers -/

/-- C2: calling `ule(a, b)` twice with identical operands returns the same
canonical constraint instance and the same boolean variable both times and
leaves the state of the first call unchanged; the boolean-variable counter
grows by at most one for the distinct structural key; and the dedup table
keeps at most one live instance per structural key (no duplicate keys). -/
theorem C2_ule_dedup_idempotent (st : Manager) (a b : Pdd)
    (hnd : (st.dedupC.map Prod.fst).Nodup) :
    (ule (ule st a b).1 a b).2 = (ule st a b).2 ∧
    (ule (ule st a b).1 a b).1 = (ule st a b).1 ∧
    (ule st a b).1.next_bvar ≤ st.next_bvar + 1 ∧
    ((ule st a b).1.dedupC.map Prod.fst).Nodup := by
  cases h : alookup st.dedupC (CKey.uleK a b) with
  | some bv =>
    simp [ule, ule_simplify, dedup, h, hnd]
  | none =>
    have hk : CKey.uleK a b ∉ st.dedupC.map Prod.fst := (alookup_eq_none_iff _ _).mp h
    simp [ule, ule_simplify, dedup, h, alookup, hnd, hk]

theorem C2_ule_dedup_idempotent_witness :
    (Manager.init.dedupC.map Prod.fst).Nodup ∧
    ((ule (ule Manager.init (Pdd.val 4 1) (Pdd.val 4 2)).1 (Pdd.val 4 1) (Pdd.val 4 2)).2 =
        (ule Manager.init (Pdd.val 4 1) (Pdd.val 4 2)).2 ∧
      (ule (ule Manager.init (Pdd.val 4 1) (Pdd.val 4 2)).1 (Pdd.val 4 1) (Pdd.val 4 2)).1 =
        (ule Manager.init (Pdd.val 4 1) (Pdd.val 4 2)).1 ∧
      (ule Manager.init (Pdd.val 4 1) (Pdd.val 4 2)).1.next_bvar ≤ Manager.init.next_bvar + 1 ∧
      ((ule Manager.init (Pdd.val 4 1) (Pdd.val 4 2)).1.dedupC.map Prod.fst).Nodup) :=
  ⟨by simp [Manager.init],
    C2_ule_dedup_idempotent Manager.init (Pdd.val 4 1) (Pdd.val 4 2) (by simp [Manager.init])⟩

/-- C3: for concrete operands of the same width with a nonzero divisor,
`quot_rem` returns concrete values `(q, r)` with `b * q + r = a`, `r < b`,
and no overflow of `b * q + r` below `2^K`. -/
theorem C3_quot_rem_concrete (st : Manager) (K av bv : Nat)
    (ha : av < 2 ^ K) (hb : bv < 2 ^ K) (h0 : bv ≠ 0) :
    ∃ qv rv,
      (quot_rem st (Pdd.val K av) (Pdd.val K bv)).2 = (Pdd.val K qv, Pdd.val K rv) ∧
      bv * qv + rv = av ∧ rv < bv ∧ bv * qv + rv < 2 ^ K := by
  by_cases hb1 : bv = 1
  · subst hb1
    refine ⟨av, 0, ?_, by omega, by omega, by omega⟩
    simp [quot_rem, Pdd.is_zero, Pdd.is_one, Pdd.width]
  · have hdiv : av / bv < 2 ^ K := lt_of_le_of_lt (Nat.div_le_self av bv) ha
    have hmod : av % bv < bv := Nat.mod_lt av (Nat.pos_of_ne_zero h0)
    refine ⟨av / bv, av % bv, ?_, Nat.div_add_mod av bv, hmod, ?_⟩
    · simp [quot_rem, Pdd.is_zero, Pdd.is_one, Pdd.is_val, Pdd.value, Pdd.width,
        Pdd.mkVal, h0, hb1, Nat.mod_eq_of_lt hdiv,
        Nat.mod_eq_of_lt (lt_trans hmod hb)]
    · rw [Nat.div_add_mod]; exact ha

theorem C3_quot_rem_concrete_witness :
    (5 < 2 ^ 4 ∧ 3 < 2 ^ 4 ∧ (3 : Nat) ≠ 0) ∧
    (quot_rem Manager.init (Pdd.val 4 5) (Pdd.val 4 3)).2 = (Pdd.val 4 1, Pdd.val 4 2) ∧
    (∃ qv rv,
      (quot_rem Manager.init (Pdd.val 4 5) (Pdd.val 4 3)).2 = (Pdd.val 4 qv, Pdd.val 4 rv) ∧
      3 * qv + rv = 5 ∧ rv < 3 ∧ 3 * qv + rv < 2 ^ 4) :=
  ⟨⟨by decide, by decide, by decide⟩, by decide,
    C3_quot_rem_concrete Manager.init 4 5 3 (by decide) (by decide) (by decide)⟩

/-- C4: `quot_rem` constant-folds: a zero divisor yields the all-ones
quotient and remainder `a`; a one divisor yields `(a, 0)`; in particular
at width 4, `quot_rem(5, 0)` returns `q = 15` and `r = 5`. -/
theorem C4_quot_rem_constant_folding :
    (∀ (st : Manager) (a : Pdd) (K : Nat),
      (quot_rem st a (Pdd.val K 0)).2 = (Pdd.val a.width (2 ^ a.width - 1), a)) ∧
    (∀ (st : Manager) (a : Pdd) (K : Nat),
      (quot_rem st a (Pdd.val K 1)).2 = (a, Pdd.val a.width 0)) ∧
    (quot_rem Manager.init (Pdd.val 4 5) (Pdd.val 4 0)).2 = (Pdd.val 4 15, Pdd.val 4 5) := by
  refine ⟨?_, ?_, by decide⟩
  · intro st a K
    have hpos : 0 < 2 ^ a.width := pow_pos (by norm_num) a.width
    have hlt : 2 ^ a.width - 1 < 2 ^ a.width := by omega
    simp [quot_rem, Pdd.is_zero, Pdd.mkVal, maxValue, Nat.mod_eq_of_lt hlt]
  · intro st a K
    simp [quot_rem, Pdd.is_zero, Pdd.is_one]

/-- C10: on every constant-folded path (zero divisor, one divisor, or two
concrete operands) `quot_rem` returns without touching the manager or the
solver: no variable is allocated, no clause added, no memo entry
inserted. -/
theorem C10_quot_rem_const_fold_frame (st : Manager) (a b : Pdd)
    (h : b.is_zero = true ∨ b.is_one = true ∨ (a.is_val && b.is_val) = true) :
    (quot_rem st a b).1 = st := by
  unfold quot_rem
  split_ifs with h1 h2 h3 <;> first | rfl | simp_all

theorem C10_quot_rem_const_fold_frame_witness :
    ((Pdd.val 4 0).is_zero = true ∨ (Pdd.val 4 0).is_one = true ∨
      ((Pdd.val 4 5).is_val && (Pdd.val 4 0).is_val) = true) ∧
    (quot_rem Manager.init (Pdd.val 4 5) (Pdd.val 4 0)).1 = Manager.init :=
  ⟨Or.inl rfl, C10_quot_rem_const_fold_frame Manager.init (Pdd.val 4 5) (Pdd.val 4 0) (Or.inl rfl)⟩

/-! ## Claim C8: signed comparison -/

theorem dedup_snd_key (st : Manager) (k : CKey) : (dedup st k).2.key = k := by
  unfold dedup
  cases alookup st.dedupC k <;> rfl

theorem ule_snd_key (st : Manager) (a b : Pdd) :
    (ule st a b).2.c.key = CKey.uleK a b ∧ (ule st a b).2.pos = true :=
  ⟨dedup_snd_key st (CKey.uleK a b), rfl⟩

theorem shift_mod (S x : Nat) (hS : 0 < S) (hx : x < 2 * S) :
    (x + S) % (2 * S) = if x < S then x + S else x - S := by
  by_cases h : x < S
  · rw [if_pos h, Nat.mod_eq_of_lt (by omega)]
  · rw [if_neg h, Nat.mod_eq_sub_mod (by omega)]
    have he : x + S - 2 * S = x - S := by omega
    rw [he, Nat.mod_eq_of_lt (by omega)]

theorem shift_compare (K av bv : Nat) (hK : 0 < K) (ha : av < 2 ^ K) (hb : bv < 2 ^ K) :
    ((av + 2 ^ (K - 1)) % 2 ^ K ≤ (bv + 2 ^ (K - 1)) % 2 ^ K) ↔
      twosComplement K av ≤ twosComplement K bv := by
  have h2 : 2 ^ K = 2 * 2 ^ (K - 1) := by
    conv_lhs => rw [show K = K - 1 + 1 by omega]
    rw [pow_succ]; ring
  have hS : 0 < 2 ^ (K - 1) := pow_pos (by norm_num) _
  rw [h2] at ha hb
  unfold twosComplement
  rw [h2, shift_mod _ av hS (by omega), shift_mod _ bv hS (by omega)]
  by_cases hav : av < 2 ^ (K - 1) <;> by_cases hbv : bv < 2 ^ (K - 1) <;>
    simp only [hav, hbv, if_true, if_false] <;> omega

/-- C8: `sle(a, b)` equals `ule(a + 2^(K-1), b + 2^(K-1))` where `K` is
the bit width, and on concrete width-`K` operands the resulting
constraint holds exactly when `a ≤ b` in two's-complement signed order. -/
theorem C8_sle_signed_compare (st : Manager) (K av bv : Nat) (sigma : Nat → Nat)
    (hK : 0 < K) (ha : av < 2 ^ K) (hb : bv < 2 ^ K) :
    (∀ (st1 : Manager) (a b : Pdd),
      sle st1 a b =
        ule st1 (a.paddConst (2 ^ (a.width - 1))) (b.paddConst (2 ^ (a.width - 1)))) ∧
    SignedC.holds sigma (sle st (Pdd.val K av) (Pdd.val K bv)).2 =
      some (decide (twosComplement K av ≤ twosComplement K bv)) := by
  refine ⟨fun st1 a b => rfl, ?_⟩
  have h2 : 2 ^ K = 2 * 2 ^ (K - 1) := by
    conv_lhs => rw [show K = K - 1 + 1 by omega]
    rw [pow_succ]; ring
  have hS : 0 < 2 ^ (K - 1) := pow_pos (by norm_num) _
  have hKpos : 0 < 2 ^ K := pow_pos (by norm_num) K
  have hSlt : 2 ^ (K - 1) < 2 ^ K := by omega
  have hlhs : (Pdd.val K av).paddConst (2 ^ (K - 1)) =
      Pdd.val K ((av + 2 ^ (K - 1)) % 2 ^ K) := by
    simp [Pdd.paddConst, Pdd.padd, Pdd.mkVal, Pdd.width, Nat.mod_eq_of_lt hSlt]
  have hrhs : (Pdd.val K bv).paddConst (2 ^ (K - 1)) =
      Pdd.val K ((bv + 2 ^ (K - 1)) % 2 ^ K) := by
    simp [Pdd.paddConst, Pdd.padd, Pdd.mkVal, Pdd.width, Nat.mod_eq_of_lt hSlt]
  have hsle : sle st (Pdd.val K av) (Pdd.val K bv) =
      ule st (Pdd.val K ((av + 2 ^ (K - 1)) % 2 ^ K))
        (Pdd.val K ((bv + 2 ^ (K - 1)) % 2 ^ K)) := by
    unfold sle
    simp only [Pdd.width]
    rw [hlhs, hrhs]
  rw [hsle]
  have hk := ule_snd_key st (Pdd.val K ((av + 2 ^ (K - 1)) % 2 ^ K))
    (Pdd.val K ((bv + 2 ^ (K - 1)) % 2 ^ K))
  unfold SignedC.holds
  rw [hk.1, hk.2]
  have hev1 : Pdd.eval sigma (Pdd.val K ((av + 2 ^ (K - 1)) % 2 ^ K)) =
      (av + 2 ^ (K - 1)) % 2 ^ K := by
    simp [Pdd.eval, Nat.mod_eq_of_lt (Nat.mod_lt _ hKpos)]
  have hev2 : Pdd.eval sigma (Pdd.val K ((bv + 2 ^ (K - 1)) % 2 ^ K)) =
      (bv + 2 ^ (K - 1)) % 2 ^ K := by
    simp [Pdd.eval, Nat.mod_eq_of_lt (Nat.mod_lt _ hKpos)]
  have hbeq : (decide ((av + 2 ^ (K - 1)) % 2 ^ K ≤ (bv + 2 ^ (K - 1)) % 2 ^ K)) =
      decide (twosComplement K av ≤ twosComplement K bv) :=
    decide_eq_decide.mpr (shift_compare K av bv hK ha hb)
  have hbt : ∀ x : Bool, (x == true) = x := fun x => by cases x <;> rfl
  simp only [CKey.sem, hev1, hev2, Option.map, hbt, hbeq]

theorem C8_sle_signed_compare_witness :
    (0 < 4 ∧ 8 < 2 ^ 4 ∧ 7 < 2 ^ 4) ∧
    ((∀ (st1 : Manager) (a b : Pdd),
      sle st1 a b =
        ule st1 (a.paddConst (2 ^ (a.width - 1))) (b.paddConst (2 ^ (a.width - 1)))) ∧
    SignedC.holds (fun _ => 0) (sle Manager.init (Pdd.val 4 8) (Pdd.val 4 7)).2 =
      some (decide (twosComplement 4 8 ≤ twosComplement 4 7))) :=
  ⟨⟨by decide, by decide, by decide⟩,
    C8_sle_signed_compare Manager.init 4 8 7 (fun _ => 0) (by decide) (by decide) (by decide)⟩

/-! ## Claim C7: operation-result memoization -/

@[simp] theorem add_clause_quotRemExpr (st : Manager) (cs : List SignedC) :
    (add_clause st cs).quotRemExpr = st.quotRemExpr := rfl

@[simp] theorem add_clause_opExpr (st : Manager) (cs : List SignedC) :
    (add_clause st cs).opExpr = st.opExpr := rfl

@[simp] theorem add_clause_next_pvar (st : Manager) (cs : List SignedC) :
    (add_clause st cs).next_pvar = st.next_pvar := rfl

@[simp] theorem add_clause_clauses (st : Manager) (cs : List SignedC) :
    (add_clause st cs).clauses = st.clauses ++ [cs] := rfl

@[simp] theorem dedup_fst_quotRemExpr (st : Manager) (k : CKey) :
    (dedup st k).1.quotRemExpr = st.quotRemExpr := by
  unfold dedup; cases alookup st.dedupC k <;> rfl

@[simp] theorem dedup_fst_opExpr (st : Manager) (k : CKey) :
    (dedup st k).1.opExpr = st.opExpr := by
  unfold dedup; cases alookup st.dedupC k <;> rfl

@[simp] theorem dedup_fst_next_pvar (st : Manager) (k : CKey) :
    (dedup st k).1.next_pvar = st.next_pvar := by
  unfold dedup; cases alookup st.dedupC k <;> rfl

@[simp] theorem dedup_fst_clauses (st : Manager) (k : CKey) :
    (dedup st k).1.clauses = st.clauses := by
  unfold dedup; cases alookup st.dedupC k <;> rfl

@[simp] theorem ule_fst (st : Manager) (a b : Pdd) :
    (ule st a b).1 = (dedup st (CKey.uleK a b)).1 := rfl

@[simp] theorem eqc_fst (st : Manager) (p : Pdd) :
    (eqc st p).1 = (dedup st (CKey.uleK p (Pdd.val p.width 0))).1 := rfl

@[simp] theorem ult_fst (st : Manager) (a b : Pdd) :
    (ult st a b).1 = (dedup st (CKey.uleK b a)).1 := rfl

@[simp] theorem umul_ovfl_fst (st : Manager) (a b : Pdd) :
    (umul_ovfl st a b).1 = (dedup st (CKey.umulOvflK a b)).1 := rfl

@[simp] theorem mk_op_constraint_fst (st : Manager) (op : OpCode) (p q r : Pdd) :
    (mk_op_constraint st op p q r).1 = (dedup st (CKey.opK op p q r)).1 := rfl

theorem quot_rem_miss_spec (st : Manager) (a b : Pdd)
    (hz : b.is_zero = false) (ho : b.is_one = false)
    (hv : (a.is_val && b.is_val) = false)
    (hm : alookup st.quotRemExpr (a, b) = none) :
    (quot_rem st a b).2 =
      (Pdd.var a.width st.next_pvar, Pdd.var a.width (st.next_pvar + 1)) ∧
    (quot_rem st a b).1.quotRemExpr =
      ((a, b), (st.next_pvar, st.next_pvar + 1)) :: st.quotRemExpr ∧
    (quot_rem st a b).1.next_pvar = st.next_pvar + 2 ∧
    (quot_rem st a b).1.clauses.length = st.clauses.length + 5 := by
  simp only [quot_rem, hz, ho, hv, hm, Bool.false_eq_true, if_false, ite_false]
  refine ⟨trivial, by simp, by simp, by simp⟩

theorem quot_rem_hit_spec (st : Manager) (a b : Pdd) (qi ri : Nat)
    (hz : b.is_zero = false) (ho : b.is_one = false)
    (hv : (a.is_val && b.is_val) = false)
    (hm : alookup st.quotRemExpr (a, b) = some (qi, ri)) :
    quot_rem st a b = (st, (Pdd.var a.width qi, Pdd.var a.width ri)) := by
  simp only [quot_rem, hz, ho, hv, hm, Bool.false_eq_true, if_false, ite_false]

theorem mk_op_term_miss_spec (st : Manager) (op : OpCode) (p q : Pdd)
    (hm : alookup st.opExpr (op, p, q) = none) :
    (mk_op_term st op p q).2 = Pdd.var p.width st.next_pvar ∧
    (mk_op_term st op p q).1.opExpr = ((op, p, q), st.next_pvar) :: st.opExpr ∧
    (mk_op_term st op p q).1.next_pvar = st.next_pvar + 1 ∧
    (mk_op_term st op p q).1.clauses.length = st.clauses.length + 1 := by
  simp only [mk_op_term, hm]
  refine ⟨trivial, by simp, by simp, by simp⟩

theorem mk_op_term_hit_spec (st : Manager) (op : OpCode) (p q : Pdd) (rv : Nat)
    (hm : alookup st.opExpr (op, p, q) = some rv) :
    mk_op_term st op p q = (st, Pdd.var p.width rv) := by
  simp only [mk_op_term, hm]

/-- C7: `quot_rem` on the non-constant path allocates two fresh result
variables, records the mapping under the key `(a, b)`, and emits the
defining clauses exactly once; a second call with the same operands
returns the same result variables and changes nothing.  Likewise
`mk_op_term` introduces exactly one result variable and one defining
clause per distinct `(op, p, q)` key, and a hit re-emits nothing. -/
theorem C7_memoization (st : Manager) (a b : Pdd)
    (hz : b.is_zero = false) (ho : b.is_one = false)
    (hv : (a.is_val && b.is_val) = false)
    (hm : alookup st.quotRemExpr (a, b) = none) :
    (quot_rem st a b).2 =
      (Pdd.var a.width st.next_pvar, Pdd.var a.width (st.next_pvar + 1)) ∧
    alookup (quot_rem st a b).1.quotRemExpr (a, b) =
      some (st.next_pvar, st.next_pvar + 1) ∧
    (quot_rem st a b).1.next_pvar = st.next_pvar + 2 ∧
    (quot_rem st a b).1.clauses.length = st.clauses.length + 5 ∧
    quot_rem (quot_rem st a b).1 a b = ((quot_rem st a b).1, (quot_rem st a b).2) ∧
    (∀ (st2 : Manager) (op : OpCode) (p q : Pdd),
      alookup st2.opExpr (op, p, q) = none →
        (mk_op_term st2 op p q).2 = Pdd.var p.width st2.next_pvar ∧
        (mk_op_term st2 op p q).1.next_pvar = st2.next_pvar + 1 ∧
        (mk_op_term st2 op p q).1.clauses.length = st2.clauses.length + 1 ∧
        mk_op_term (mk_op_term st2 op p q).1 op p q =
          ((mk_op_term st2 op p q).1, (mk_op_term st2 op p q).2)) := by
  obtain ⟨h1, h2, h3, h4⟩ := quot_rem_miss_spec st a b hz ho hv hm
  have hl : alookup (quot_rem st a b).1.quotRemExpr (a, b) =
      some (st.next_pvar, st.next_pvar + 1) := by
    rw [h2]; simp [alookup]
  refine ⟨h1, hl, h3, h4, ?_, ?_⟩
  · rw [quot_rem_hit_spec ((quot_rem st a b).1) a b st.next_pvar (st.next_pvar + 1)
      hz ho hv hl, h1]
  · intro st2 op p q hm2
    obtain ⟨g1, g2, g3, g4⟩ := mk_op_term_miss_spec st2 op p q hm2
    have gl : alookup (mk_op_term st2 op p q).1.opExpr (op, p, q) = some st2.next_pvar := by
      rw [g2]; simp [alookup]
    exact ⟨g1, g3, g4, by rw [mk_op_term_hit_spec ((mk_op_term st2 op p q).1) op p q
      st2.next_pvar gl, g1]⟩

theorem C7_memoization_witness :
    ((Pdd.var 4 8).is_zero = false ∧ (Pdd.var 4 8).is_one = false ∧
      ((Pdd.var 4 7).is_val && (Pdd.var 4 8).is_val) = false ∧
      alookup Manager.init.quotRemExpr (Pdd.var 4 7, Pdd.var 4 8) = none) ∧
    quot_rem (quot_rem Manager.init (Pdd.var 4 7) (Pdd.var 4 8)).1
        (Pdd.var 4 7) (Pdd.var 4 8) =
      ((quot_rem Manager.init (Pdd.var 4 7) (Pdd.var 4 8)).1,
        (quot_rem Manager.init (Pdd.var 4 7) (Pdd.var 4 8)).2) :=
  ⟨⟨rfl, rfl, rfl, rfl⟩,
    (C7_memoization Manager.init (Pdd.var 4 7) (Pdd.var 4 8) rfl rfl rfl rfl).2.2.2.2.1⟩

/-! ## Claims C5 and C6: watch installation, de-installation, level release -/

theorem getWatch_setWatch (st : WState) (i j : Nat) (l : List Nat) :
    getWatch (setWatch st i l) j = if j = i then l else getWatch st j := by
  unfold getWatch setWatch
  simp only [alookup_aupdate]
  by_cases h : j = i <;> simp [h]

theorem mem_pushWatch_self (st : WState) (i : Nat) (cid : Nat) :
    cid ∈ getWatch (pushWatch st i cid) i := by
  unfold pushWatch
  rw [getWatch_setWatch]
  simp

theorem mem_pushWatch_mono (st : WState) (i j : Nat) (cid cid2 : Nat)
    (h : cid ∈ getWatch st j) : cid ∈ getWatch (pushWatch st i cid2) j := by
  unfold pushWatch
  rw [getWatch_setWatch]
  by_cases hji : j = i
  · subst hji; simp [List.mem_append, h]
  · simp [hji, h]

@[simp] theorem unwatch_buckets (st : WState) (cid : Nat) :
    (unwatch st cid).buckets = st.buckets := by
  unfold unwatch
  by_cases h : (getClause st cid).length ≤ 1
  · simp [h]
  · simp only [h, if_false]
    rcases getClause st cid with _ | ⟨l0, _ | ⟨l1, t⟩⟩ <;> rfl

@[simp] theorem unwatch_refcount (st : WState) (cid : Nat) :
    (unwatch st cid).refcount = st.refcount := by
  unfold unwatch
  by_cases h : (getClause st cid).length ≤ 1
  · simp [h]
  · simp only [h, if_false]
    rcases getClause st cid with _ | ⟨l0, _ | ⟨l1, t⟩⟩ <;> rfl

@[simp] theorem unwatch_clauses (st : WState) (cid : Nat) :
    (unwatch st cid).clauses = st.clauses := by
  unfold unwatch
  by_cases h : (getClause st cid).length ≤ 1
  · simp [h]
  · simp only [h, if_false]
    rcases getClause st cid with _ | ⟨l0, _ | ⟨l1, t⟩⟩ <;> rfl

theorem refcountOf_unwatch (st : WState) (cid x : Nat) :
    refcountOf (unwatch st cid) x = refcountOf st x := by
  unfold refcountOf
  rw [unwatch_refcount]

theorem releaseBucketClauses_spec (lst : List Nat) : ∀ (st : WState),
    (∀ cid ∈ lst, refcountOf st cid = 1) →
    ∃ st1, releaseBucketClauses st lst = some st1 ∧
      st1.buckets = st.buckets ∧ st1.refcount = st.refcount ∧
      st1.clauses = st.clauses := by
  induction lst with
  | nil => intro st _; exact ⟨st, rfl, rfl, rfl, rfl⟩
  | cons cid rest ih =>
    intro st h
    have hrc : refcountOf (unwatch st cid) cid = 1 := by
      rw [refcountOf_unwatch]; exact h cid (by simp)
    obtain ⟨st1, heq, hb, hr, hc⟩ := ih (unwatch st cid) (by
      intro c hcmem
      rw [refcountOf_unwatch]; exact h c (by simp [hcmem]))
    refine ⟨st1, ?_, by rw [hb, unwatch_buckets], by rw [hr, unwatch_refcount],
      by rw [hc, unwatch_clauses]⟩
    simp only [releaseBucketClauses, hrc, if_pos, heq, if_true]

theorem getD_set_ne {α : Type} (xs : List α) (i j : Nat) (v d : α) (h : i ≠ j) :
    (xs.set i v).getD j d = xs.getD j d := by
  induction xs generalizing i j with
  | nil => simp
  | cons hd t ih =>
    cases i with
    | zero =>
      cases j with
      | zero => exact absurd rfl h
      | succ j2 => simp [List.set]
    | succ i2 =>
      cases j with
      | zero => simp [List.set]
      | succ j2 => simpa [List.set] using ih i2 j2 (by omega)

theorem getD_set_same (xs : List (List Nat)) (i : Nat) :
    (xs.set i ([] : List Nat)).getD i [] = [] := by
  induction xs generalizing i with
  | nil => simp
  | cons hd t ih =>
    cases i with
    | zero => simp
    | succ n => simpa using ih n

theorem releaseAt_spec (st : WState) (l : Nat)
    (h : ∀ cid ∈ bucketAt st l, refcountOf st cid = 1) :
    ∃ st1, releaseAt st l = some st1 ∧
      st1.buckets = st.buckets.set l [] ∧ st1.refcount = st.refcount ∧
      st1.clauses = st.clauses := by
  obtain ⟨st1, heq, hb, hr, hc⟩ := releaseBucketClauses_spec (bucketAt st l) st h
  refine ⟨{ st1 with buckets := st1.buckets.set l [] }, ?_, ?_, ?_, ?_⟩
  · simp only [releaseAt, heq, Option.map_some']
  · simp [hb]
  · simp [hr]
  · simp [hc]

theorem release_levels_spec (lvl : Nat) : ∀ (n : Nat) (st : WState),
    (∀ i, i < n → ∀ cid ∈ bucketAt st (lvl + i), refcountOf st cid = 1) →
    ∃ st1, release_levels st lvl n = some st1 ∧
      st1.refcount = st.refcount ∧ st1.clauses = st.clauses ∧
      st1.buckets.length = st.buckets.length ∧
      (∀ i, i < n → bucketAt st1 (lvl + i) = []) ∧
      (∀ l, l < lvl ∨ lvl + n ≤ l → bucketAt st1 l = bucketAt st l) := by
  intro n
  induction n with
  | zero =>
    intro st _
    exact ⟨st, rfl, rfl, rfl, rfl, fun i hi => absurd hi (by omega), fun l _ => rfl⟩
  | succ m ih =>
    intro st h
    obtain ⟨st1, heq1, hb1, hr1, hc1⟩ := releaseAt_spec st (lvl + m) (h m (by omega))
    obtain ⟨st2, heq2, hr2, hc2, hlen2, hclr2, hfr2⟩ := ih st1 (by
      intro i hi cid hcid
      have hbi : bucketAt st1 (lvl + i) = bucketAt st (lvl + i) := by
        unfold bucketAt
        rw [hb1]
        exact getD_set_ne st.buckets (lvl + m) (lvl + i) [] [] (by omega)
      have hrc : refcountOf st1 cid = refcountOf st cid := by
        unfold refcountOf; rw [hr1]
      rw [hrc]
      exact h i (by omega) cid (hbi ▸ hcid))
    refine ⟨st2, ?_, by rw [hr2, hr1], by rw [hc2, hc1],
      by rw [hlen2, hb1, List.length_set], ?_, ?_⟩
    · simp only [release_levels, heq1, heq2]
    · intro i hi
      by_cases him : i = m
      · subst him
        have : bucketAt st2 (lvl + i) = bucketAt st1 (lvl + i) :=
          hfr2 (lvl + i) (by omega)
        rw [this]
        unfold bucketAt
        rw [hb1]
        exact getD_set_same st.buckets (lvl + i)
      · exact hclr2 i (by omega)
    · intro l hl
      have h1 : bucketAt st2 l = bucketAt st1 l := hfr2 l (by omega)
      have h2 : bucketAt st1 l = bucketAt st l := by
        unfold bucketAt
        rw [hb1]
        exact getD_set_ne st.buckets (lvl + m) l [] [] (by omega)
      rw [h1, h2]

theorem getD_past_length {α : Type} (xs : List α) (n : Nat) (d : α)
    (h : xs.length ≤ n) : xs.getD n d = d := by
  induction xs generalizing n with
  | nil => simp
  | cons hd t ih =>
    cases n with
    | zero => simp at h
    | succ n2 => simpa using ih n2 (by simpa using h)

/-- C5 (amended): when every clause filed at a level `≥ L` has exactly one
outstanding reference, `release_level L` succeeds (every reference-count
assertion passes), proceeds from the highest populated level down to `L`,
and clears every bucket at level `≥ L` while leaving the buckets below `L`
and the reference counts unchanged.  (The clauses are passed to `unwatch`,
which removes them from the watch lists indexed by the *negations* of
their front literals; a clause registered under its front literals
themselves therefore may remain watched, see the counterexample.) -/
theorem C5_release_level_clears_buckets (st : WState) (L : Nat)
    (h : ∀ l, L ≤ l → ∀ cid ∈ bucketAt st l, refcountOf st cid = 1) :
    ∃ st1, release_level st L = some st1 ∧
      (∀ l, L ≤ l → bucketAt st1 l = []) ∧
      (∀ l, l < L → bucketAt st1 l = bucketAt st l) ∧
      st1.refcount = st.refcount := by
  obtain ⟨st1, heq, hr, hc, hlen, hclr, hfr⟩ :=
    release_levels_spec L (st.buckets.length - L) st (by
      intro i hi cid hcid
      exact h (L + i) (by omega) cid hcid)
  refine ⟨st1, heq, ?_, fun l hl => hfr l (Or.inl hl), hr⟩
  intro l hL
  by_cases hlt : l < st.buckets.length
  · have hi : l - L < st.buckets.length - L := by omega
    have := hclr (l - L) hi
    rwa [Nat.add_sub_cancel' hL] at this
  · unfold bucketAt
    exact getD_past_length st1.buckets l [] (by omega)

/-- A small concrete state: one binary clause (id 0, literals `b0` and
`b1`, both positive), reference count one, nothing assigned. -/
def exWStateC5 : WState :=
  { values := [], levels := [], watch := [],
    clauses := [(0, [⟨0, false⟩, ⟨1, false⟩])], refcount := [(0, 1)],
    buckets := [], conflict := false, evalFalse := [], curLevel := 0 }

/-- C5 counterexample: after `store` (register at level 0 and install
watches) followed by `release_level 0`, the released clause is *still* in
the watch list of its first literal — `unwatch` erased only the lists
indexed by the negated literals — refuting "no clause introduced at level
`≥ L` remains watched". -/
theorem C5_release_level_counterexample :
    (release_level (store exWStateC5 0 false) 0).map
      (fun st1 => decide (0 ∈ getWatch st1 (Lit.index ⟨0, false⟩))) = some true := by
  decide

theorem C5_release_level_clears_buckets_witness :
    (∀ l, 0 ≤ l → ∀ cid ∈ bucketAt (store exWStateC5 0 false) l,
      refcountOf (store exWStateC5 0 false) cid = 1) ∧
    (∃ st1, release_level (store exWStateC5 0 false) 0 = some st1 ∧
      (∀ l, 0 ≤ l → bucketAt st1 l = []) ∧
      (∀ l, l < 0 → bucketAt st1 l = bucketAt (store exWStateC5 0 false) l) ∧
      st1.refcount = (store exWStateC5 0 false).refcount) := by
  have hh : ∀ l, 0 ≤ l → ∀ cid ∈ bucketAt (store exWStateC5 0 false) l,
      refcountOf (store exWStateC5 0 false) cid = 1 := by
    intro l _ cid hcid
    match l with
    | 0 =>
      have h0 : cid ∈ [0] := hcid
      have : cid = 0 := by simpa using h0
      subst this
      rfl
    | Nat.succ m =>
      have h0 : cid ∈ ([] : List Nat) := hcid
      exact absurd h0 (List.not_mem_nil cid)
  exact ⟨hh, C5_release_level_clears_buckets (store exWStateC5 0 false) 0 hh⟩

theorem getWatch_eraseWatch (st : WState) (i j cid : Nat) :
    getWatch (eraseWatch st i cid) j =
      if j = i then (getWatch st i).erase cid else getWatch st j := by
  unfold eraseWatch
  rw [getWatch_setWatch]

theorem unwatch_eq (st : WState) (cid : Nat) (l0 l1 : Lit) (rest : List Lit)
    (hcl : getClause st cid = l0 :: l1 :: rest) :
    unwatch st cid =
      eraseWatch (eraseWatch st (Lit.index (Lit.negate l0)) cid)
        (Lit.index (Lit.negate l1)) cid := by
  unfold unwatch
  simp only [hcl, List.length_cons]
  rw [if_neg (by omega)]

theorem watch_false_watchfield (st : WState) (cid : Nat) (l0 l1 : Lit)
    (rest : List Lit) (n0 n1 : Lit) (tl : List Lit)
    (hcl : getClause st cid = l0 :: l1 :: rest)
    (hn : normalize_watch st (l0 :: l1 :: rest) = n0 :: n1 :: tl) :
    (watch st cid false).watch =
      (pushWatch (pushWatch (setClause st cid (n0 :: n1 :: tl)) n0.index cid)
        n1.index cid).watch := by
  unfold watch
  simp only [hcl, hn, Bool.false_eq_true, if_false, ite_false]
  split_ifs <;> rfl

/-- C6 (amended): `install` registers a clause of size greater than one in
the watch lists of its two (normalized) front literals, and `uninstall`
is a no-op for clauses of size at most one; but `uninstall` removes the
clause from the watch lists indexed by the *negations* of its two front
literals, leaving every other list unchanged — it does not undo the
registration under the front literals themselves, so install followed by
uninstall does not restore the watch-list state (see the
counterexample). -/
theorem C6_watch_unwatch_asymmetric (st : WState) (cid : Nat) (l0 l1 : Lit)
    (rest : List Lit)
    (hcl : getClause st cid = l0 :: l1 :: rest)
    (hne : Lit.index (Lit.negate l0) ≠ Lit.index (Lit.negate l1)) :
    (∃ n0 n1 tl, normalize_watch st (l0 :: l1 :: rest) = n0 :: n1 :: tl ∧
      cid ∈ getWatch (watch st cid false) n0.index ∧
      cid ∈ getWatch (watch st cid false) n1.index) ∧
    getWatch (unwatch st cid) (Lit.index (Lit.negate l0)) =
      (getWatch st (Lit.index (Lit.negate l0))).erase cid ∧
    getWatch (unwatch st cid) (Lit.index (Lit.negate l1)) =
      (getWatch st (Lit.index (Lit.negate l1))).erase cid ∧
    (∀ i, i ≠ Lit.index (Lit.negate l0) → i ≠ Lit.index (Lit.negate l1) →
      getWatch (unwatch st cid) i = getWatch st i) ∧
    (∀ (st2 : WState) (cid2 : Nat), (getClause st2 cid2).length ≤ 1 →
      unwatch st2 cid2 = st2) := by
  obtain ⟨n0, n1, tl, hn, _, _⟩ := normalizeWatchAux_spec (get_watch_level st) l0 l1 rest
  have hwf := watch_false_watchfield st cid l0 l1 rest n0 n1 tl hcl hn
  refine ⟨⟨n0, n1, tl, hn, ?_, ?_⟩, ?_, ?_, ?_, ?_⟩
  · have hgw : getWatch (watch st cid false) n0.index =
        getWatch (pushWatch (pushWatch (setClause st cid (n0 :: n1 :: tl))
          n0.index cid) n1.index cid) n0.index := by
      unfold getWatch
      rw [hwf]
    rw [hgw]
    exact mem_pushWatch_mono _ _ _ _ _ (mem_pushWatch_self _ _ _)
  · have hgw : getWatch (watch st cid false) n1.index =
        getWatch (pushWatch (pushWatch (setClause st cid (n0 :: n1 :: tl))
          n0.index cid) n1.index cid) n1.index := by
      unfold getWatch
      rw [hwf]
    rw [hgw]
    exact mem_pushWatch_self _ _ _
  · rw [unwatch_eq st cid l0 l1 rest hcl, getWatch_eraseWatch, if_neg hne,
      getWatch_eraseWatch, if_pos rfl]
  · rw [unwatch_eq st cid l0 l1 rest hcl, getWatch_eraseWatch, if_pos rfl,
      getWatch_eraseWatch, if_neg (Ne.symm hne)]
  · intro i hi0 hi1
    rw [unwatch_eq st cid l0 l1 rest hcl, getWatch_eraseWatch, if_neg hi1,
      getWatch_eraseWatch, if_neg hi0]
  · intro st2 cid2 hle
    simp [unwatch, hle]

/-- A small concrete state for the C6 counterexample: one binary clause
(id 0), empty watch lists, nothing assigned. -/
def exWStateC6 : WState :=
  { values := [], levels := [], watch := [],
    clauses := [(0, [⟨0, false⟩, ⟨1, false⟩])], refcount := [(0, 1)],
    buckets := [], conflict := false, evalFalse := [], curLevel := 0 }

/-- C6 counterexample: installing the clause and then uninstalling it does
*not* restore the watch-list state — the clause is still in the watch list
of its first front literal, because `unwatch` erased the lists indexed by
the negated literals instead. -/
theorem C6_watch_unwatch_counterexample :
    getWatch (unwatch (watch exWStateC6 0 false) 0) (Lit.index ⟨0, false⟩) ≠
      getWatch exWStateC6 (Lit.index ⟨0, false⟩) := by
  decide

theorem C6_watch_unwatch_asymmetric_witness :
    (getClause exWStateC6 0 = [⟨0, false⟩, ⟨1, false⟩] ∧
      Lit.index (Lit.negate ⟨0, false⟩) ≠ Lit.index (Lit.negate ⟨1, false⟩)) ∧
    getWatch (unwatch exWStateC6 0) (Lit.index (Lit.negate ⟨0, false⟩)) =
      (getWatch exWStateC6 (Lit.index (Lit.negate ⟨0, false⟩))).erase 0 :=
  ⟨⟨rfl, by decide⟩,
    (C6_watch_unwatch_asymmetric exWStateC6 0 ⟨0, false⟩ ⟨1, false⟩ [] rfl
      (by decide)).2.1⟩

end Polysat
